import Mathlib

/-!
Verification of the packed-bucket string hash set (`tsl::array_set` façade over the
`detail_array_hash::array_hash` engine).

Only the façade `src/src/array-hash/src/array_set.h` is present in the repository
snapshot; the engine header `array_hash.h` it includes is absent.  Consequently the
engine operations (insert / find / count / erase / rehash and the bucket, index-table
and growth-policy structures) are modelled from the specification (spec.md §3, §4, §7),
while the façade-level code (`operator==`, the `insert`/`emplace` forwarding family,
the `*_ks` entry points) is translated from the source file.

Keys are finite byte sequences, modelled as `List Nat`.  The packed byte-buffer layout
of a bucket (size-prefixed records) is memory representation; since the spec's record
invariant makes records in a bucket in bijection with their keys, a bucket is modelled
as the list of its key records in arrival order.  A `Locator` is the spec's
`{bucket index, record position}` handle.  The injected hashing capability is a
parameter `h : Key → Nat` of every operation; the equality capability is byte-sequence
equality (the default `str_equal`).
-/

namespace Tsl

/-- A key: a finite byte sequence. -/
abbrev Key := List Nat

/-- Modelled from the spec: a Locator `{bucket index, position}` identifying one live
key record (spec §3).  The byte offset of the packed layout is represented by the
record's position in its bucket. -/
structure Locator where
  bucket : Nat
  pos : Nat
deriving DecidableEq, Repr

/-- Modelled from the spec: error kinds of the engine (spec §7). -/
inductive Err where
  | capacityExceeded
  | invalidArgument
deriving DecidableEq, Repr

/-- Modelled from the spec: the engine state — Bucket Store, Index Table and the
max-load-factor threshold (spec §3).  Element count is the Index Table length
(spec §3 invariant: length == live key count). -/
structure ArrayHash where
  buckets : List (List Key)
  indexTable : List Locator
  maxLoadFactor : ℚ
deriving DecidableEq

/-- Default width of the key-length field (`KeySizeT = std::uint16_t`). -/
def KEY_WIDTH : Nat := 16

/-- Default width of the element-count field (`IndexSizeT = std::uint32_t`). -/
def INDEX_WIDTH : Nat := 32

/-- Modelled from the spec: `max_key_size() = 2^(key-size-field-width) - 1` (spec §4.5);
the body lives in the absent `array_hash.h`. -/
def maxKeySize : Nat := 2 ^ KEY_WIDTH - 1

/-- Modelled from the spec: `max_size() = 2^(element-count-field-width)` (spec §4.5);
the body lives in the absent `array_hash.h`. -/
def maxSize : Nat := 2 ^ INDEX_WIDTH

/-- Modelled from the spec: ceiling on the bucket count (the growth policy's
index-width ceiling, spec §4.2). -/
def maxBucketCount : Nat := 2 ^ 63

/-- Current bucket count of the Bucket Store. -/
def bucketCount (s : ArrayHash) : Nat := s.buckets.length

/-- Element count: the Index Table is dense, one locator per live key (spec §3). -/
def size (s : ArrayHash) : Nat := s.indexTable.length

/-- The records of bucket `i` (empty for an out-of-range index). -/
def bucketAt (s : ArrayHash) (i : Nat) : List Key := s.buckets.getD i []

/-- Modelled from the spec: the power-of-two growth policy's index map
`index = hash AND (bucket_count - 1)` (spec §4.2). -/
def bucketIndex (hv bc : Nat) : Nat := hv &&& (bc - 1)

/-- Dereference a locator to its key record. -/
def resolve (s : ArrayHash) (loc : Locator) : Key := (bucketAt s loc.bucket).getD loc.pos []

/-- Modelled from the spec: iteration reads the Index Table in array order (spec §4.3). -/
def iterKeys (s : ArrayHash) : List Key := s.indexTable.map (resolve s)

/-- All key records held by the Bucket Store. -/
def allKeys (s : ArrayHash) : List Key := s.buckets.flatten

/-- Modelled from the spec: the growth policy doubles the bucket count until it covers
the requested minimum, starting from the minimum count 1 (spec §4.2).  `fuel` bounds
the doubling; `bucketCountFor` supplies enough fuel. -/
def coverCountAux : Nat → Nat → Nat → Nat
  | 0, cur, _ => cur
  | fuel + 1, cur, minReq => if minReq ≤ cur then cur else coverCountAux fuel (2 * cur) minReq

/-- Modelled from the spec: `bucket_count_for(min_requested)` of the default
power-of-two policy; a requested count of 0 still yields 1 bucket (spec §4.2). -/
def bucketCountFor (minReq : Nat) : Nat := coverCountAux minReq 1 minReq

/-- Modelled from the spec: `scan_find` walks a bucket's records from the front and
returns the position of the first record equal to the key (spec §4.1). -/
def scanFind : List Key → Key → Option Nat
  | [], _ => none
  | r :: rest, k => if r = k then some 0 else (scanFind rest k).map (· + 1)

/-- Modelled from the spec: `find(bytes, len)` hashes the key, asks the growth policy
for the bucket index and scans that bucket (spec §2, §4.5).  `none` is the distinguished
not-found handle. -/
def findOp (h : Key → Nat) (s : ArrayHash) (k : Key) : Option Locator :=
  (scanFind (bucketAt s (bucketIndex (h k) (bucketCount s))) k).map
    (fun p => ⟨bucketIndex (h k) (bucketCount s), p⟩)

/-- Modelled from the spec: `count(bytes, len)` — the number of records equal to the
key; the primitive is written generically for multi-key reuse (spec §4.5). -/
def countOp (h : Key → Nat) (s : ArrayHash) (k : Key) : Nat :=
  (bucketAt s (bucketIndex (h k) (bucketCount s))).count k

/-- Modelled from the spec: append a record to its target bucket and a fresh locator
to the Index Table (spec §2 data flow). -/
def appendRecord (h : Key → Nat) (k : Key) (s : ArrayHash) : ArrayHash × Locator :=
  let bi := bucketIndex (h k) (bucketCount s)
  let b := bucketAt s bi
  let loc : Locator := ⟨bi, b.length⟩
  ({ s with buckets := s.buckets.set bi (b ++ [k]),
            indexTable := s.indexTable ++ [loc] }, loc)

/-- A fresh empty Bucket Store of `nc` buckets with the same configuration. -/
def freshLike (s : ArrayHash) (nc : Nat) : ArrayHash :=
  { buckets := List.replicate nc [], indexTable := [], maxLoadFactor := s.maxLoadFactor }

/-- Modelled from the spec: the Rehash Engine builds a fresh store of the new bucket
count and re-appends every live key in current Index Table order (spec §4.4). -/
def rebuild (h : Key → Nat) (nc : Nat) (s : ArrayHash) : ArrayHash :=
  (iterKeys s).foldl (fun t k => (appendRecord h k t).1) (freshLike s nc)

/-- Numerator of the max-load-factor threshold. -/
def mlNum (s : ArrayHash) : Int := s.maxLoadFactor.num

/-- Denominator of the max-load-factor threshold. -/
def mlDen (s : ArrayHash) : Nat := s.maxLoadFactor.den

/-- Modelled from the spec: the least bucket count whose load factor for `n` elements
stays within the ceiling — the requested minimum handed to the growth policy on an
automatic rehash (spec §4.4 triggers). -/
def needBuckets (s : ArrayHash) (n : Nat) : Nat :=
  (n * mlDen s + ((mlNum s).toNat - 1)) / (mlNum s).toNat

/-- Modelled from the spec: rehash to the policy count covering `minReq`; fails with a
capacity error, leaving the state untouched, if the target bucket count exceeds the
index-width ceiling (spec §4.4 failure, all-or-nothing). -/
def rehashRaw (h : Key → Nat) (minReq : Nat) (s : ArrayHash) : ArrayHash × Except Err Unit :=
  let nc := bucketCountFor minReq
  if maxBucketCount < nc then (s, .error .capacityExceeded)
  else (rebuild h nc s, .ok ())

/-- Modelled from the spec: `insert(bytes, len)` — return the existing handle with
`inserted=false` and no mutation if an equal key exists; otherwise validate the key
length and element count against the capacity ceilings, rehash first if the post-insert
load factor would exceed the ceiling, then append the record and locator
(spec §4.5, §4.4, §7). -/
def insertOp (h : Key → Nat) (k : Key) (s : ArrayHash) :
    ArrayHash × Except Err (Locator × Bool) :=
  match findOp h s k with
  | some loc => (s, .ok (loc, false))
  | none =>
    if maxKeySize < k.length then (s, .error .capacityExceeded)
    else if maxSize < size s + 1 then (s, .error .capacityExceeded)
    else if ((size s + 1 : Nat) : Int) * (mlDen s) ≤ mlNum s * (bucketCount s : Int) then
      let r := appendRecord h k s
      (r.1, .ok (r.2, true))
    else
      match rehashRaw h (needBuckets s (size s + 1)) s with
      | (_, .error e) => (s, .error e)
      | (s1, .ok _) =>
        let r := appendRecord h k s1
        (r.1, .ok (r.2, true))

/-- Remove Index Table slot `i` by swapping in the last live slot, then truncating
(spec §4.3 `remove_at`). -/
def removeSwap (tbl : List Locator) (i : Nat) : List Locator :=
  (tbl.set i (tbl.getLastD ⟨0, 0⟩)).dropLast

/-- Repair a locator after the record at `(bi, p)` was spliced out of its bucket:
locators of the same bucket past the removed record shift down by one (spec §2). -/
def fixLoc (bi p : Nat) (l : Locator) : Locator :=
  if l.bucket = bi ∧ p < l.pos then ⟨l.bucket, l.pos - 1⟩ else l

/-- Modelled from the spec: the state after erasing the record at `loc` — the record is
spliced out of its bucket, the record's Index Table slot is dropped by
swap-with-last-then-truncate, and locators of trailing records of that bucket shift
down (spec §3 lifecycle, §4.3). -/
def eraseResult (s : ArrayHash) (loc : Locator) : ArrayHash :=
  { s with buckets := s.buckets.set loc.bucket ((bucketAt s loc.bucket).eraseIdx loc.pos),
           indexTable := (removeSwap s.indexTable
              (s.indexTable.findIdx (fun l => decide (l = loc)))).map
                (fixLoc loc.bucket loc.pos) }

/-- Modelled from the spec: `erase(bytes, len)` — find the record, remove it via
`eraseResult`; returns the removed count (spec §4.5). -/
def eraseOp (h : Key → Nat) (k : Key) (s : ArrayHash) : ArrayHash × Nat :=
  match findOp h s k with
  | none => (s, 0)
  | some loc => (eraseResult s loc, 1)

/-- Modelled from the spec: explicit `rehash(count)` — the requested minimum is clamped
so the current element count still fits under the load-factor ceiling (spec §4.4). -/
def rehashOp (h : Key → Nat) (count : Nat) (s : ArrayHash) : ArrayHash × Except Err Unit :=
  rehashRaw h (max count (needBuckets s (size s))) s

/-- Modelled from the spec: `reserve(count)` rehashes for `count` prospective elements
(spec §4.5). -/
def reserveOp (h : Key → Nat) (count : Nat) (s : ArrayHash) : ArrayHash × Except Err Unit :=
  rehashOp h (needBuckets s count) s

/-- Modelled from the spec: `shrink_to_fit` rehashes to the minimum bucket count that
fits the current element count under the ceiling (spec §4.4). -/
def shrinkToFitOp (h : Key → Nat) (s : ArrayHash) : ArrayHash × Except Err Unit :=
  rehashOp h 0 s

/-- An empty table with the bucket count the growth policy yields for `req` and the
default max load factor 1.0 (spec §4.2, §4.4). -/
def mkEmpty (req : Nat) : ArrayHash :=
  { buckets := List.replicate (bucketCountFor req) [], indexTable := [], maxLoadFactor := 1 }

/-- Insert a list of keys left to right (the façade's range insert). -/
def insertAll (h : Key → Nat) (ks : List Key) (s : ArrayHash) : ArrayHash :=
  ks.foldl (fun t k => (insertOp h k t).1) s

/-- Build a table by inserting `ks` into an empty table of requested bucket count `req`. -/
def buildTable (h : Key → Nat) (ks : List Key) (req : Nat) : ArrayHash :=
  insertAll h ks (mkEmpty req)

/-- `array_set::count_ks` (array_set.h line 257): forwards to the engine count. -/
def count_ks (h : Key → Nat) (s : ArrayHash) (k : Key) : Nat := countOp h s k

/-- `array_set::find_ks` (array_set.h lines 286-288): forwards to the engine find. -/
def find_ks (h : Key → Nat) (s : ArrayHash) (k : Key) : Option Locator := findOp h s k

/-- `array_set::insert_ks` (array_set.h lines 172-174): forwards to the engine insert. -/
def insert_ks (h : Key → Nat) (s : ArrayHash) (k : Key) :
    ArrayHash × Except Err (Locator × Bool) := insertOp h k s

/-- `array_set::emplace_ks` (array_set.h lines 216-218): forwards to the engine insert. -/
def emplace_ks (h : Key → Nat) (s : ArrayHash) (k : Key) :
    ArrayHash × Except Err (Locator × Bool) := insertOp h k s

/-- `array_set::insert` for an owned string (array_set.h lines 168-170): forwards
`(key.data(), key.size())` — i.e. the key itself — to the engine insert. -/
def insertStr (h : Key → Nat) (s : ArrayHash) (k : Key) :
    ArrayHash × Except Err (Locator × Bool) := insertOp h k s

/-- `array_set::emplace` for an owned string (array_set.h lines 212-214): forwards
`(key.data(), key.size())` to the engine insert. -/
def emplaceStr (h : Key → Nat) (s : ArrayHash) (k : Key) :
    ArrayHash × Except Err (Locator × Bool) := insertOp h k s

/-- `array_set::erase_ks` (array_set.h lines 238-240): forwards to the engine erase. -/
def erase_ks (h : Key → Nat) (s : ArrayHash) (k : Key) : ArrayHash × Nat := eraseOp h k s

/-- `array_set::operator==` (array_set.h lines 361-374), translated from the source:
false if the sizes differ, else every key of `lhs`, in iteration order, is looked up
in `rhs`; `rhs.find` uses `rhs`'s injected hash `h`. -/
def tableEq (h : Key → Nat) (lhs rhs : ArrayHash) : Bool :=
  if size lhs = size rhs then (iterKeys lhs).all (fun k => (findOp h rhs k).isSome)
  else false

/-- `array_set::operator!=` (array_set.h lines 376-378): the negation of `operator==`. -/
def tableNe (h : Key → Nat) (lhs rhs : ArrayHash) : Bool := ! tableEq h lhs rhs

/-- A concrete injected hash capability used for concrete witnesses. -/
def h0 : Key → Nat := fun k => k.foldl (fun a b => 31 * a + b) 0

instance instDecEqExcept {ε α : Type} [DecidableEq ε] [DecidableEq α] :
    DecidableEq (Except ε α) := fun a b =>
  match a, b with
  | .error e, .error f =>
    if h : e = f then isTrue (congrArg Except.error h)
    else isFalse (by intro c; injection c; exact h (by assumption))
  | .ok x, .ok y =>
    if h : x = y then isTrue (congrArg Except.ok h)
    else isFalse (by intro c; injection c; exact h (by assumption))
  | .error _, .ok _ => isFalse (by intro c; injection c)
  | .ok _, .error _ => isFalse (by intro c; injection c)

/-! ### List helpers -/

theorem getD_eq_getElem {α : Type} (l : List α) (i : Nat) (d : α) (h : i < l.length) :
    l.getD i d = l[i] := by
  simp [List.getD_eq_getElem?_getD, List.getElem?_eq_getElem h]

theorem getD_append_left {α : Type} (l l' : List α) (n : Nat) (d : α) (hn : n < l.length) :
    (l ++ l').getD n d = l.getD n d := by
  simp [List.getD_eq_getElem?_getD, List.getElem?_append_left hn]

theorem getD_concat_length {α : Type} (l : List α) (a d : α) :
    (l ++ [a]).getD l.length d = a := by
  simp [List.getD_eq_getElem?_getD, List.getElem?_concat_length]

theorem getD_set_self {α : Type} (l : List α) (i : Nat) (x d : α) (h : i < l.length) :
    (l.set i x).getD i d = x := by
  simp [List.getD_eq_getElem?_getD, List.getElem?_set_self h]

theorem getD_set_ne {α : Type} (l : List α) {i j : Nat} (x d : α) (h : i ≠ j) :
    (l.set i x).getD j d = l.getD j d := by
  simp [List.getD_eq_getElem?_getD, List.getElem?_set_ne h]

theorem getD_of_length_le {α : Type} (l : List α) (n : Nat) (d : α) (h : l.length ≤ n) :
    l.getD n d = d := by
  simp [List.getD_eq_getElem?_getD, List.getElem?_eq_none h]

theorem getD_mem {α : Type} {l : List α} {n : Nat} (d : α) (h : n < l.length) :
    l.getD n d ∈ l := by
  rw [getD_eq_getElem _ _ _ h]
  exact List.getElem_mem h

theorem not_mem_eraseIdx_self {α : Type} {l : List α} {p : Nat} (d : α) (nd : l.Nodup)
    (hp : p < l.length) : l.getD p d ∉ l.eraseIdx p := by
  induction l generalizing p with
  | nil => simp at hp
  | cons a t ih =>
    cases p with
    | zero => simpa using (List.nodup_cons.mp nd).1
    | succ q =>
      have hq : q < t.length := Nat.lt_of_succ_lt_succ hp
      intro hmem
      rcases List.mem_cons.mp hmem with h1 | h2
      · exact (List.nodup_cons.mp nd).1 (h1 ▸ getD_mem d hq)
      · exact ih (List.nodup_cons.mp nd).2 hq h2

theorem mem_eraseIdx_of_ne {α : Type} {l : List α} {x : α} {p : Nat} (d : α) (hx : x ∈ l)
    (hne : x ≠ l.getD p d) : x ∈ l.eraseIdx p := by
  induction l generalizing p with
  | nil => simp at hx
  | cons a t ih =>
    cases p with
    | zero =>
      rcases List.mem_cons.mp hx with rfl | h2
      · exact absurd rfl hne
      · simpa using h2
    | succ q =>
      rcases List.mem_cons.mp hx with rfl | h2
      · exact List.mem_cons_self _ _
      · exact List.mem_cons_of_mem _ (ih h2 (by simpa using hne))

theorem flatten_set_append {α : Type} [DecidableEq α] (L : List (List α)) (i : Nat) (a : α)
    (h : i < L.length) :
    (L.set i (L[i] ++ [a])).flatten.Perm (L.flatten ++ [a]) := by
  have hdec : L = L.take i ++ L[i] :: L.drop (i + 1) := by
    conv_lhs => rw [← List.take_append_drop i L, ← List.getElem_cons_drop L i h]
  rw [List.set_eq_take_cons_drop _ h]
  conv_rhs => rw [hdec]
  simp only [List.flatten_append, List.flatten_cons]
  rw [List.perm_iff_count]
  intro x
  simp only [List.count_append]
  omega

/-! ### Growth-policy lemmas -/

theorem coverCountAux_ge (fuel : Nat) : ∀ cur minReq : Nat, cur ≠ 0 →
    minReq ≤ 2 ^ fuel * cur → minReq ≤ coverCountAux fuel cur minReq := by
  induction fuel with
  | zero => intro cur minReq _ hf; simpa [coverCountAux] using hf
  | succ f ih =>
    intro cur minReq hc hf
    rw [coverCountAux]
    split
    · assumption
    · refine ih (2 * cur) minReq (by omega) ?_
      rw [show 2 ^ f * (2 * cur) = 2 ^ (f + 1) * cur by ring]
      exact hf

theorem coverCountAux_cur_le (fuel : Nat) : ∀ cur minReq : Nat,
    cur ≤ coverCountAux fuel cur minReq := by
  induction fuel with
  | zero => intro cur minReq; simp [coverCountAux]
  | succ f ih =>
    intro cur minReq
    rw [coverCountAux]
    split
    · exact Nat.le_refl _
    · exact Nat.le_trans (by omega) (ih (2 * cur) minReq)

theorem coverCountAux_pow (fuel : Nat) : ∀ cur minReq : Nat, (∃ m, cur = 2 ^ m) →
    ∃ m, coverCountAux fuel cur minReq = 2 ^ m := by
  induction fuel with
  | zero => intro cur minReq hc; simpa [coverCountAux] using hc
  | succ f ih =>
    intro cur minReq hc
    rw [coverCountAux]
    split
    · exact hc
    · obtain ⟨m, rfl⟩ := hc
      exact ih (2 * 2 ^ m) minReq ⟨m + 1, by rw [Nat.pow_succ]; omega⟩

theorem coverCountAux_le (fuel : Nat) : ∀ cur minReq : Nat,
    coverCountAux fuel cur minReq ≤ max cur (2 * minReq) := by
  induction fuel with
  | zero => intro cur minReq; simp [coverCountAux]
  | succ f ih =>
    intro cur minReq
    rw [coverCountAux]
    split
    · simp
    · have := ih (2 * cur) minReq
      omega

theorem bucketCountFor_ge (minReq : Nat) : minReq ≤ bucketCountFor minReq :=
  coverCountAux_ge minReq 1 minReq (by omega)
    (by simpa using Nat.le_of_lt (Nat.lt_two_pow minReq))

theorem bucketCountFor_pos (minReq : Nat) : 1 ≤ bucketCountFor minReq :=
  coverCountAux_cur_le minReq 1 minReq

theorem bucketCountFor_pow (minReq : Nat) : ∃ m, bucketCountFor minReq = 2 ^ m :=
  coverCountAux_pow minReq 1 minReq ⟨0, rfl⟩

theorem bucketCountFor_le (minReq : Nat) : bucketCountFor minReq ≤ max 1 (2 * minReq) :=
  coverCountAux_le minReq 1 minReq

theorem bucketIndex_lt (hv : Nat) {bc : Nat} (h : ∃ m, bc = 2 ^ m) :
    bucketIndex hv bc < bc := by
  obtain ⟨m, rfl⟩ := h
  rw [bucketIndex, Nat.and_pow_two_sub_one_eq_mod]
  exact Nat.mod_lt _ (Nat.two_pow_pos m)

/-! ### scanFind lemmas -/

theorem scanFind_eq_none {b : List Key} {k : Key} : scanFind b k = none ↔ k ∉ b := by
  induction b with
  | nil => simp [scanFind]
  | cons r rest ih =>
    by_cases hr : r = k
    · subst hr; simp [scanFind]
    · simp only [scanFind, if_neg hr, Option.map_eq_none', ih, List.mem_cons]
      constructor
      · rintro h2 (rfl | hm)
        · exact hr rfl
        · exact h2 hm
      · intro h2 hm
        exact h2 (Or.inr hm)

theorem scanFind_isSome {b : List Key} {k : Key} : (scanFind b k).isSome = true ↔ k ∈ b := by
  rw [← Option.ne_none_iff_isSome]
  exact not_iff_comm.mp scanFind_eq_none.symm

theorem scanFind_some {b : List Key} {k : Key} {p : Nat} (h : scanFind b k = some p) :
    p < b.length ∧ b.getD p [] = k := by
  induction b generalizing p with
  | nil => simp [scanFind] at h
  | cons r rest ih =>
    by_cases hr : r = k
    · rw [scanFind, if_pos hr] at h
      obtain rfl : (0 : Nat) = p := by simpa using h
      simpa using hr
    · rw [scanFind, if_neg hr] at h
      obtain ⟨q, hq, rfl⟩ := Option.map_eq_some'.mp h
      obtain ⟨h1, h2⟩ := ih hq
      exact ⟨Nat.succ_lt_succ h1, by simpa using h2⟩

/-! ### The table invariant

`Inv h s ks` relates an engine state to the list `ks` of its live keys in insertion
order: the bucket count comes from the power-of-two policy, iteration (Index Table
order) yields exactly `ks`, the bucket contents are a permutation of `ks`, every record
sits in the bucket its hash selects, every locator is in range, and the load-factor
ceiling is the default 1.0. -/

structure Inv (h : Key → Nat) (s : ArrayHash) (ks : List Key) : Prop where
  pow : ∃ m, bucketCount s = 2 ^ m
  keysEq : iterKeys s = ks
  contentPerm : (allKeys s).Perm ks
  placed : ∀ i : Nat, ∀ x ∈ bucketAt s i, i = bucketIndex (h x) (bucketCount s)
  tblOK : ∀ loc ∈ s.indexTable,
    loc.bucket < bucketCount s ∧ loc.pos < (bucketAt s loc.bucket).length
  ml1 : s.maxLoadFactor = 1

theorem Inv.size_eq {h : Key → Nat} {s : ArrayHash} {ks : List Key} (I : Inv h s ks) :
    size s = ks.length := by
  calc size s = (iterKeys s).length := (List.length_map _ _).symm
  _ = ks.length := by rw [I.keysEq]

/-! ### appendRecord lemmas -/

theorem bucketCount_appendRecord (h : Key → Nat) (k : Key) (s : ArrayHash) :
    bucketCount (appendRecord h k s).1 = bucketCount s := by
  simp [appendRecord, bucketCount]

theorem ml_appendRecord (h : Key → Nat) (k : Key) (s : ArrayHash) :
    (appendRecord h k s).1.maxLoadFactor = s.maxLoadFactor := by
  simp [appendRecord]

theorem size_appendRecord (h : Key → Nat) (k : Key) (s : ArrayHash) :
    size (appendRecord h k s).1 = size s + 1 := by
  simp [appendRecord, size]

theorem indexTable_appendRecord (h : Key → Nat) (k : Key) (s : ArrayHash) :
    (appendRecord h k s).1.indexTable = s.indexTable ++
      [⟨bucketIndex (h k) (bucketCount s), (bucketAt s (bucketIndex (h k) (bucketCount s))).length⟩] := by
  simp [appendRecord]

theorem bucketAt_appendRecord_self (h : Key → Nat) (k : Key) (s : ArrayHash)
    (hbi : bucketIndex (h k) (bucketCount s) < bucketCount s) :
    bucketAt (appendRecord h k s).1 (bucketIndex (h k) (bucketCount s))
      = bucketAt s (bucketIndex (h k) (bucketCount s)) ++ [k] := by
  simp only [appendRecord, bucketAt]
  exact getD_set_self _ _ _ _ hbi

theorem bucketAt_appendRecord_ne (h : Key → Nat) (k : Key) (s : ArrayHash) {j : Nat}
    (hj : j ≠ bucketIndex (h k) (bucketCount s)) :
    bucketAt (appendRecord h k s).1 j = bucketAt s j := by
  simp only [appendRecord, bucketAt]
  exact getD_set_ne _ _ _ (fun e => hj e.symm)

theorem inv_appendRecord {h : Key → Nat} {s : ArrayHash} {ks : List Key} {k : Key}
    (I : Inv h s ks) : Inv h (appendRecord h k s).1 (ks ++ [k]) := by
  have hbi : bucketIndex (h k) (bucketCount s) < bucketCount s := bucketIndex_lt _ I.pow
  have hbcs : bucketCount (appendRecord h k s).1 = bucketCount s :=
    bucketCount_appendRecord h k s
  refine ⟨?_, ?_, ?_, ?_, ?_, ?_⟩
  · rw [hbcs]; exact I.pow
  · rw [iterKeys, indexTable_appendRecord, List.map_append]
    have hold : (s.indexTable.map (resolve (appendRecord h k s).1))
        = s.indexTable.map (resolve s) := by
      refine List.map_congr_left ?_
      intro loc hmem
      obtain ⟨hb, hp⟩ := I.tblOK loc hmem
      by_cases hl : loc.bucket = bucketIndex (h k) (bucketCount s)
      · rw [resolve, resolve, hl, bucketAt_appendRecord_self h k s hbi]
        exact getD_append_left _ _ _ _ (hl ▸ hp)
      · rw [resolve, resolve, bucketAt_appendRecord_ne h k s hl]
    rw [hold]
    have hnew : resolve (appendRecord h k s).1
        ⟨bucketIndex (h k) (bucketCount s), (bucketAt s (bucketIndex (h k) (bucketCount s))).length⟩ = k := by
      rw [resolve, bucketAt_appendRecord_self h k s hbi]
      exact getD_concat_length _ _ _
    rw [List.map_cons, List.map_nil, hnew, ← iterKeys, I.keysEq]
  · have hb : bucketAt s (bucketIndex (h k) (bucketCount s))
        = s.buckets[bucketIndex (h k) (bucketCount s)] :=
      getD_eq_getElem _ _ _ hbi
    have hperm : (allKeys (appendRecord h k s).1).Perm (allKeys s ++ [k]) := by
      rw [allKeys, allKeys]
      simp only [appendRecord, hb]
      exact flatten_set_append s.buckets _ k hbi
    exact hperm.trans (I.contentPerm.append_right [k])
  · intro i x hx
    rw [hbcs]
    by_cases hi : i = bucketIndex (h k) (bucketCount s)
    · subst hi
      rw [bucketAt_appendRecord_self h k s hbi] at hx
      rcases List.mem_append.mp hx with h1 | h2
      · exact I.placed _ x h1
      · obtain rfl : x = k := by simpa using h2
        rfl
    · rw [bucketAt_appendRecord_ne h k s hi] at hx
      exact I.placed _ x hx
  · intro loc hmem
    rw [indexTable_appendRecord] at hmem
    rw [hbcs]
    rcases List.mem_append.mp hmem with h1 | h2
    · obtain ⟨hb2, hp2⟩ := I.tblOK loc h1
      refine ⟨hb2, ?_⟩
      by_cases hl : loc.bucket = bucketIndex (h k) (bucketCount s)
      · rw [hl, bucketAt_appendRecord_self h k s hbi]
        rw [List.length_append]
        exact Nat.lt_succ_of_lt (hl ▸ hp2)
      · rw [bucketAt_appendRecord_ne h k s hl]
        exact hp2
    · obtain rfl : loc = ⟨bucketIndex (h k) (bucketCount s),
          (bucketAt s (bucketIndex (h k) (bucketCount s))).length⟩ := by simpa using h2
      refine ⟨hbi, ?_⟩
      rw [bucketAt_appendRecord_self h k s hbi, List.length_append]
      simp
  · rw [ml_appendRecord]; exact I.ml1

/-! ### rebuild lemmas -/

theorem inv_foldl_append {h : Key → Nat} (ks : List Key) :
    ∀ (t : ArrayHash) (ks0 : List Key), Inv h t ks0 →
      Inv h (ks.foldl (fun t k => (appendRecord h k t).1) t) (ks0 ++ ks) := by
  induction ks with
  | nil => intro t ks0 I; simpa using I
  | cons k ks ih =>
    intro t ks0 I
    have I1 := inv_appendRecord (k := k) I
    have h2 := ih (appendRecord h k t).1 (ks0 ++ [k]) I1
    rw [List.foldl_cons]
    rw [List.append_assoc, List.singleton_append] at h2
    exact h2

theorem bucketCount_foldl_append (h : Key → Nat) (ks : List Key) :
    ∀ t : ArrayHash, bucketCount (ks.foldl (fun t k => (appendRecord h k t).1) t)
      = bucketCount t := by
  induction ks with
  | nil => intro t; rfl
  | cons k ks ih =>
    intro t
    rw [List.foldl_cons, ih, bucketCount_appendRecord]

theorem inv_freshLike {h : Key → Nat} {s : ArrayHash} {ks : List Key} (I : Inv h s ks)
    {nc : Nat} (hnc : ∃ m, nc = 2 ^ m) : Inv h (freshLike s nc) [] := by
  refine ⟨?_, rfl, ?_, ?_, ?_, ?_⟩
  · simpa [bucketCount, freshLike] using hnc
  · simp [allKeys, freshLike]
  · intro i x hx
    rw [bucketAt, freshLike] at hx
    rcases Nat.lt_or_ge i nc with hi | hi
    · rw [getD_eq_getElem _ _ _ (by simpa using hi)] at hx
      simp at hx
    · rw [getD_of_length_le _ _ _ (by simpa using hi)] at hx
      simp at hx
  · intro loc hmem
    simp [freshLike] at hmem
  · rw [freshLike]; exact I.ml1

theorem inv_rebuild {h : Key → Nat} {s : ArrayHash} {ks : List Key} (I : Inv h s ks)
    {nc : Nat} (hnc : ∃ m, nc = 2 ^ m) : Inv h (rebuild h nc s) ks := by
  have base := inv_freshLike I hnc
  have h2 := inv_foldl_append (iterKeys s) (freshLike s nc) [] base
  rw [List.nil_append] at h2
  rw [rebuild, ← I.keysEq]
  exact h2

theorem bucketCount_rebuild (h : Key → Nat) (nc : Nat) (s : ArrayHash) :
    bucketCount (rebuild h nc s) = nc := by
  rw [rebuild, bucketCount_foldl_append]
  simp [bucketCount, freshLike]

theorem inv_mkEmpty (h : Key → Nat) (req : Nat) : Inv h (mkEmpty req) [] := by
  refine ⟨?_, rfl, ?_, ?_, ?_, rfl⟩
  · simpa [bucketCount, mkEmpty] using bucketCountFor_pow req
  · simp [allKeys, mkEmpty]
  · intro i x hx
    rw [bucketAt, mkEmpty] at hx
    rcases Nat.lt_or_ge i (bucketCountFor req) with hi | hi
    · rw [getD_eq_getElem _ _ _ (by simpa using hi)] at hx
      simp at hx
    · rw [getD_of_length_le _ _ _ (by simpa using hi)] at hx
      simp at hx
  · intro loc hmem
    simp [mkEmpty] at hmem

/-! ### find and count correctness -/

theorem mem_allKeys_of_mem_bucketAt {s : ArrayHash} {x : Key} {i : Nat}
    (hx : x ∈ bucketAt s i) : x ∈ allKeys s := by
  rw [bucketAt] at hx
  rcases Nat.lt_or_ge i s.buckets.length with hi | hi
  · rw [getD_eq_getElem _ _ _ hi] at hx
    exact List.mem_flatten_of_mem (List.getElem_mem hi) hx
  · rw [getD_of_length_le _ _ _ hi] at hx
    simp at hx

theorem mem_bucketAt_of_mem_allKeys {h : Key → Nat} {s : ArrayHash} {ks : List Key}
    {x : Key} (I : Inv h s ks) (hx : x ∈ allKeys s) :
    x ∈ bucketAt s (bucketIndex (h x) (bucketCount s)) := by
  rw [allKeys, List.mem_flatten] at hx
  obtain ⟨l, hl, hxl⟩ := hx
  obtain ⟨i, hi, rfl⟩ := List.mem_iff_getElem.mp hl
  have hbx : x ∈ bucketAt s i := by
    rw [bucketAt, getD_eq_getElem _ _ _ hi]
    exact hxl
  rw [← I.placed i x hbx]
  exact hbx

theorem findOp_eq_none {h : Key → Nat} {s : ArrayHash} {k : Key} (hk : k ∉ allKeys s) :
    findOp h s k = none := by
  rw [findOp, Option.map_eq_none', scanFind_eq_none]
  intro hmem
  exact hk (mem_allKeys_of_mem_bucketAt hmem)

theorem findOp_isSome {h : Key → Nat} {s : ArrayHash} {ks : List Key} {k : Key}
    (I : Inv h s ks) (hk : k ∈ allKeys s) : (findOp h s k).isSome = true := by
  rw [findOp, Option.isSome_map', scanFind_isSome]
  exact mem_bucketAt_of_mem_allKeys I hk

theorem findOp_some_spec {h : Key → Nat} {s : ArrayHash} {k : Key} {loc : Locator}
    (hf : findOp h s k = some loc) :
    loc.bucket = bucketIndex (h k) (bucketCount s) ∧
    loc.pos < (bucketAt s loc.bucket).length ∧ (bucketAt s loc.bucket).getD loc.pos [] = k := by
  rw [findOp] at hf
  obtain ⟨p, hp, rfl⟩ := Option.map_eq_some'.mp hf
  obtain ⟨h1, h2⟩ := scanFind_some hp
  exact ⟨rfl, h1, h2⟩

theorem nodup_bucketAt {s : ArrayHash} (nd : (allKeys s).Nodup) (i : Nat) :
    (bucketAt s i).Nodup := by
  rcases Nat.lt_or_ge i s.buckets.length with hi | hi
  · rw [bucketAt, getD_eq_getElem _ _ _ hi]
    exact (List.nodup_flatten.mp nd).1 _ (List.getElem_mem hi)
  · rw [bucketAt, getD_of_length_le _ _ _ hi]
    exact List.nodup_nil

theorem count_eq_one_of_nodup_mem {α : Type} [BEq α] [LawfulBEq α] {l : List α} {a : α}
    (nd : l.Nodup) (h : a ∈ l) : l.count a = 1 := by
  induction l with
  | nil => simp at h
  | cons x t ih =>
    rw [List.count_cons]
    rcases List.mem_cons.mp h with rfl | hm
    · rw [List.count_eq_zero.mpr (List.nodup_cons.mp nd).1]
      simp
    · have hne : ¬ a = x := by
        rintro rfl
        exact (List.nodup_cons.mp nd).1 hm
      rw [ih (List.nodup_cons.mp nd).2 hm]
      simp [beq_iff_eq, hne, Ne.symm hne]

theorem countOp_eq {h : Key → Nat} {s : ArrayHash} {ks : List Key} {k : Key}
    (I : Inv h s ks) (nd : ks.Nodup) : countOp h s k = if k ∈ ks then 1 else 0 := by
  have ndall : (allKeys s).Nodup := I.contentPerm.nodup_iff.mpr nd
  by_cases hk : k ∈ ks
  · have hka : k ∈ allKeys s := I.contentPerm.mem_iff.mpr hk
    rw [countOp, if_pos hk]
    exact count_eq_one_of_nodup_mem (nodup_bucketAt ndall _) (mem_bucketAt_of_mem_allKeys I hka)
  · have : k ∉ bucketAt s (bucketIndex (h k) (bucketCount s)) := fun hm =>
      hk (I.contentPerm.mem_iff.mp (mem_allKeys_of_mem_bucketAt hm))
    rw [countOp, if_neg hk]
    exact List.count_eq_zero.mpr this

/-! ### insert lemmas -/

theorem insertOp_found {h : Key → Nat} {s : ArrayHash} {k : Key} {loc : Locator}
    (hf : findOp h s k = some loc) : insertOp h k s = (s, .ok (loc, false)) := by
  rw [insertOp, hf]

theorem mlNum_of_ml1 {s : ArrayHash} (hm : s.maxLoadFactor = 1) : mlNum s = 1 := by
  rw [mlNum, hm, Rat.num_one]

theorem mlDen_of_ml1 {s : ArrayHash} (hm : s.maxLoadFactor = 1) : mlDen s = 1 := by
  rw [mlDen, hm, Rat.den_one]

theorem needBuckets_of_ml1 {s : ArrayHash} (hm : s.maxLoadFactor = 1) (n : Nat) :
    needBuckets s n = n := by
  rw [needBuckets, mlNum_of_ml1 hm, mlDen_of_ml1 hm]
  simp

theorem insertOp_eq_append {h : Key → Nat} {s : ArrayHash} {k : Key}
    (hfind : findOp h s k = none) (hlen : k.length ≤ maxKeySize)
    (hsz : size s + 1 ≤ maxSize)
    (hcond : ((size s + 1 : Nat) : Int) * (mlDen s) ≤ mlNum s * (bucketCount s : Int)) :
    insertOp h k s = ((appendRecord h k s).1, .ok ((appendRecord h k s).2, true)) := by
  rw [insertOp, hfind]
  rw [if_neg (by omega), if_neg (by omega), if_pos hcond]

theorem insertOp_eq_rehash_append {h : Key → Nat} {s : ArrayHash} {k : Key}
    (hfind : findOp h s k = none) (hlen : k.length ≤ maxKeySize)
    (hsz : size s + 1 ≤ maxSize)
    (hcond : ¬ ((size s + 1 : Nat) : Int) * (mlDen s) ≤ mlNum s * (bucketCount s : Int))
    (hguard : ¬ maxBucketCount < bucketCountFor (needBuckets s (size s + 1))) :
    insertOp h k s =
      ((appendRecord h k (rebuild h (bucketCountFor (needBuckets s (size s + 1))) s)).1,
        .ok ((appendRecord h k (rebuild h (bucketCountFor (needBuckets s (size s + 1))) s)).2,
          true)) := by
  rw [insertOp, hfind]
  rw [if_neg (by omega), if_neg (by omega), if_neg hcond, rehashRaw, if_neg hguard]

theorem insert_success {h : Key → Nat} {s : ArrayHash} {ks : List Key} {k : Key}
    (I : Inv h s ks) (load : size s ≤ bucketCount s) (hk : k ∉ ks)
    (hlen : k.length ≤ maxKeySize) (hsz : size s + 1 ≤ maxSize) :
    Inv h (insertOp h k s).1 (ks ++ [k]) ∧ size (insertOp h k s).1 = size s + 1 ∧
    size (insertOp h k s).1 ≤ bucketCount (insertOp h k s).1 ∧
    ∃ loc, (insertOp h k s).2 = .ok (loc, true) := by
  have hfind : findOp h s k = none :=
    findOp_eq_none (fun hm => hk (I.contentPerm.mem_iff.mp hm))
  have hnum := mlNum_of_ml1 I.ml1
  have hden := mlDen_of_ml1 I.ml1
  have hcond_iff : (((size s + 1 : Nat) : Int) * (mlDen s) ≤ mlNum s * (bucketCount s : Int))
      ↔ size s + 1 ≤ bucketCount s := by
    rw [hnum, hden]
    push_cast
    omega
  by_cases hload : size s + 1 ≤ bucketCount s
  · have heq := insertOp_eq_append hfind hlen hsz (hcond_iff.mpr hload)
    rw [heq]
    refine ⟨inv_appendRecord I, size_appendRecord h k s, ?_, ⟨_, rfl⟩⟩
    rw [size_appendRecord, bucketCount_appendRecord]
    exact hload
  · have hneed := needBuckets_of_ml1 I.ml1 (size s + 1)
    have hguard : ¬ maxBucketCount < bucketCountFor (needBuckets s (size s + 1)) := by
      have h1 := bucketCountFor_le (size s + 1)
      nth_rewrite 1 [← hneed] at h1
      have h2 : maxSize = 4294967296 := by decide
      have h3 : maxBucketCount = 9223372036854775808 := by decide
      omega
    have heq := insertOp_eq_rehash_append hfind hlen hsz
      (fun c => hload (hcond_iff.mp c)) hguard
    rw [heq]
    have I2 : Inv h (rebuild h (bucketCountFor (needBuckets s (size s + 1))) s) ks :=
      inv_rebuild I (bucketCountFor_pow _)
    refine ⟨inv_appendRecord I2, ?_, ?_, ⟨_, rfl⟩⟩
    · rw [size_appendRecord, I2.size_eq, I.size_eq]
    · rw [size_appendRecord, bucketCount_appendRecord, I2.size_eq, bucketCount_rebuild]
      have h4 := bucketCountFor_ge (needBuckets s (size s + 1))
      nth_rewrite 1 [hneed] at h4
      have h5 := I.size_eq
      omega

theorem inv_insertAll {h : Key → Nat} (ks : List Key) :
    ∀ (s : ArrayHash) (ks0 : List Key), Inv h s ks0 → size s ≤ bucketCount s →
      (ks0 ++ ks).Nodup → (∀ x ∈ ks, x.length ≤ maxKeySize) →
      ks0.length + ks.length ≤ maxSize →
      Inv h (insertAll h ks s) (ks0 ++ ks) ∧
      size (insertAll h ks s) ≤ bucketCount (insertAll h ks s) := by
  induction ks with
  | nil =>
    intro s ks0 I load _ _ _
    rw [List.append_nil]
    exact ⟨I, load⟩
  | cons k ks ih =>
    intro s ks0 I load nd hlen hsz
    have hk0 : k ∉ ks0 := by
      intro hmem
      exact (List.nodup_append.mp nd).2.2 hmem (List.mem_cons_self k ks)
    have hsz1 : size s + 1 ≤ maxSize := by
      have h1 := I.size_eq
      simp only [List.length_cons] at hsz
      omega
    obtain ⟨I1, hs1, load1, _⟩ :=
      insert_success I load hk0 (hlen k (List.mem_cons_self k ks)) hsz1
    have hrec := ih (insertOp h k s).1 (ks0 ++ [k]) I1 load1
      (by rw [List.append_assoc, List.singleton_append]; exact nd)
      (fun x hx => hlen x (List.mem_cons_of_mem _ hx))
      (by simp only [List.length_append, List.length_singleton, List.length_cons,
        List.length_nil] at hsz ⊢; omega)
    rw [List.append_assoc, List.singleton_append] at hrec
    rw [insertAll, List.foldl_cons]
    exact hrec

theorem inv_buildTable (h : Key → Nat) (ks : List Key) (req : Nat) (nd : ks.Nodup)
    (hlen : ∀ x ∈ ks, x.length ≤ maxKeySize) (hsz : ks.length ≤ maxSize) :
    Inv h (buildTable h ks req) ks ∧
    size (buildTable h ks req) ≤ bucketCount (buildTable h ks req) := by
  have h2 := inv_insertAll ks (mkEmpty req) [] (inv_mkEmpty h req)
    (by simp [size, mkEmpty]) (by simpa using nd) hlen (by simpa using hsz)
  rw [List.nil_append] at h2
  exact h2

/-! ### erase lemmas -/

theorem eraseOp_eq {h : Key → Nat} {s : ArrayHash} {k : Key} {loc : Locator}
    (hf : findOp h s k = some loc) : eraseOp h k s = (eraseResult s loc, 1) := by
  rw [eraseOp, hf]

theorem bucketCount_eraseResult (s : ArrayHash) (loc : Locator) :
    bucketCount (eraseResult s loc) = bucketCount s := by
  simp [eraseResult, bucketCount]

theorem size_eraseResult (s : ArrayHash) (loc : Locator) :
    size (eraseResult s loc) = size s - 1 := by
  simp [eraseResult, size, removeSwap]

theorem bucketAt_eraseResult (s : ArrayHash) (loc : Locator)
    (hbl : loc.bucket < bucketCount s) (j : Nat) :
    bucketAt (eraseResult s loc) j =
      if j = loc.bucket then (bucketAt s loc.bucket).eraseIdx loc.pos else bucketAt s j := by
  by_cases hj : j = loc.bucket
  · subst hj
    rw [if_pos rfl, bucketAt, eraseResult]
    exact getD_set_self _ _ _ _ hbl
  · rw [if_neg hj, bucketAt, bucketAt, eraseResult]
    exact getD_set_ne _ _ _ (fun e => hj e.symm)

theorem erase_effect {h : Key → Nat} {s : ArrayHash} {ks : List Key} {k : Key}
    (I : Inv h s ks) (nd : ks.Nodup) (hk : k ∈ ks) :
    (eraseOp h k s).2 = 1 ∧
    size (eraseOp h k s).1 = ks.length - 1 ∧
    findOp h (eraseOp h k s).1 k = none ∧
    ∀ x ∈ ks, x ≠ k → (findOp h (eraseOp h k s).1 x).isSome = true := by
  have ndall : (allKeys s).Nodup := I.contentPerm.nodup_iff.mpr nd
  have hka : k ∈ allKeys s := I.contentPerm.mem_iff.mpr hk
  obtain ⟨loc, hf⟩ := Option.isSome_iff_exists.mp (findOp_isSome I hka)
  obtain ⟨hlb, hlp, hlk⟩ := findOp_some_spec hf
  have hbl : loc.bucket < bucketCount s := hlb ▸ bucketIndex_lt _ I.pow
  simp only [eraseOp_eq hf]
  refine ⟨trivial, ?_, ?_, ?_⟩
  · rw [size_eraseResult, I.size_eq]
  · rw [findOp, Option.map_eq_none', scanFind_eq_none, bucketCount_eraseResult, ← hlb,
      bucketAt_eraseResult s loc hbl, if_pos rfl]
    exact fun hm => (hlk ▸ not_mem_eraseIdx_self [] (nodup_bucketAt ndall loc.bucket) hlp) hm
  · intro x hx hne
    have hxa : x ∈ allKeys s := I.contentPerm.mem_iff.mpr hx
    have hbx := mem_bucketAt_of_mem_allKeys I hxa
    rw [findOp, Option.isSome_map', scanFind_isSome, bucketCount_eraseResult,
      bucketAt_eraseResult s loc hbl]
    by_cases ht : bucketIndex (h x) (bucketCount s) = loc.bucket
    · rw [if_pos ht]
      refine mem_eraseIdx_of_ne [] ?_ ?_
      · exact ht ▸ hbx
      · rw [hlk]; exact hne
    · rw [if_neg ht]
      exact hbx

/-! ### capacity-error cases leave the state unchanged -/

theorem rehashRaw_error_fst {h : Key → Nat} {n : Nat} {s : ArrayHash} {e : Err}
    (he : (rehashRaw h n s).2 = .error e) : (rehashRaw h n s).1 = s := by
  rw [rehashRaw] at he ⊢
  by_cases hg : maxBucketCount < bucketCountFor n
  · rw [if_pos hg]
  · rw [if_neg hg] at he
    simp at he

theorem rehashRaw_ok_fst {h : Key → Nat} {n : Nat} {s s1 : ArrayHash} {u : Unit}
    (heq : rehashRaw h n s = (s1, Except.ok u)) :
    s1 = rebuild h (bucketCountFor n) s := by
  rw [rehashRaw] at heq
  by_cases hg : maxBucketCount < bucketCountFor n
  · rw [if_pos hg] at heq
    have := congrArg Prod.snd heq
    simp at this
  · rw [if_neg hg] at heq
    have := congrArg Prod.fst heq
    simpa using this.symm

theorem insertOp_fst_or_ok (h : Key → Nat) (k : Key) (s : ArrayHash) :
    (insertOp h k s).1 = s ∨ ∃ loc b, (insertOp h k s).2 = .ok (loc, b) := by
  rw [insertOp]
  split
  · right; exact ⟨_, _, rfl⟩
  · split
    · left; rfl
    · split
      · left; rfl
      · split
        · right; exact ⟨_, _, rfl⟩
        · split
          · left; rfl
          · right; exact ⟨_, _, rfl⟩

theorem insertOp_error_fst {h : Key → Nat} {k : Key} {s : ArrayHash} {e : Err}
    (he : (insertOp h k s).2 = .error e) : (insertOp h k s).1 = s := by
  rcases insertOp_fst_or_ok h k s with h1 | ⟨loc, b, h2⟩
  · exact h1
  · rw [h2] at he
    exact absurd he (by simp)

/-! ### bucket-count shape under each operation -/

theorem insertOp_fst_shape (h : Key → Nat) (k : Key) (s : ArrayHash) :
    (insertOp h k s).1 = s ∨ (insertOp h k s).1 = (appendRecord h k s).1 ∨
    (insertOp h k s).1 =
      (appendRecord h k (rebuild h (bucketCountFor (needBuckets s (size s + 1))) s)).1 := by
  rw [insertOp]
  split
  · left; rfl
  · split
    · left; rfl
    · split
      · left; rfl
      · split
        · right; left; rfl
        · split
          · left; rfl
          · rename_i s1 u heq
            right; right
            rw [rehashRaw_ok_fst heq]

theorem pow_insertOp {h : Key → Nat} {k : Key} {s : ArrayHash}
    (hp : ∃ m, bucketCount s = 2 ^ m) :
    ∃ m, bucketCount (insertOp h k s).1 = 2 ^ m := by
  rcases insertOp_fst_shape h k s with h1 | h2 | h3
  · rw [h1]; exact hp
  · rw [h2, bucketCount_appendRecord]; exact hp
  · rw [h3, bucketCount_appendRecord, bucketCount_rebuild]
    exact bucketCountFor_pow _

theorem bucketCount_eraseOp (h : Key → Nat) (k : Key) (s : ArrayHash) :
    bucketCount (eraseOp h k s).1 = bucketCount s := by
  rw [eraseOp]
  split
  · rfl
  · rw [bucketCount_eraseResult]

theorem pow_rehashRaw {h : Key → Nat} {n : Nat} {s : ArrayHash}
    (hp : ∃ m, bucketCount s = 2 ^ m) :
    ∃ m, bucketCount (rehashRaw h n s).1 = 2 ^ m := by
  rw [rehashRaw]
  by_cases hg : maxBucketCount < bucketCountFor n
  · rw [if_pos hg]; exact hp
  · rw [if_neg hg]
    rw [bucketCount_rebuild]
    exact bucketCountFor_pow _

/-! ### Shared concrete-evaluation helpers -/

theorem findOp_mkEmpty (h : Key → Nat) (req : Nat) (k : Key) :
    findOp h (mkEmpty req) k = none := by
  rw [findOp]
  have hb : bucketAt (mkEmpty req) (bucketIndex (h k) (bucketCount (mkEmpty req))) = [] := by
    rw [bucketAt, mkEmpty]
    rcases Nat.lt_or_ge (bucketIndex (h k) (bucketCount (mkEmpty req))) (bucketCountFor req)
      with hi | hi
    · rw [getD_eq_getElem _ _ _ (by simpa using hi)]
      simp
    · rw [getD_of_length_le _ _ _ (by simpa using hi)]
  rw [hb]
  rfl

theorem insertOp_long_key (h : Key → Nat) {k : Key} (hk : maxKeySize < k.length) :
    insertOp h k (mkEmpty 1) = (mkEmpty 1, .error .capacityExceeded) := by
  rw [insertOp, findOp_mkEmpty, if_pos hk]

theorem insertOp_fits_mkEmpty (h : Key → Nat) {k : Key} (hk : ¬ maxKeySize < k.length) :
    ∃ loc, (insertOp h k (mkEmpty 1)).2 = .ok (loc, true) := by
  rw [insertOp, findOp_mkEmpty, if_neg hk, if_neg (by decide), if_pos (by decide)]
  exact ⟨_, rfl⟩

/-! ### Claim theorems -/

/-- Claim C1: for a finite set of distinct byte strings (given as a duplicate-free list
`ks` of keys that fit the capacity ceilings), after inserting each element into an
initially empty table, `count_ks` returns 1 for every member of `ks`, 0 for every byte
string outside `ks`, and never returns a value other than 0 or 1. -/
theorem C1_count_set_semantics (h : Key → Nat) (req : Nat) (ks : List Key)
    (nd : ks.Nodup) (hlen : ∀ x ∈ ks, x.length ≤ maxKeySize) (hsz : ks.length ≤ maxSize) :
    (∀ x ∈ ks, count_ks h (buildTable h ks req) x = 1) ∧
    (∀ x : Key, x ∉ ks → count_ks h (buildTable h ks req) x = 0) ∧
    (∀ x : Key, count_ks h (buildTable h ks req) x ≤ 1) := by
  obtain ⟨I, -⟩ := inv_buildTable h ks req nd hlen hsz
  refine ⟨?_, ?_, ?_⟩
  · intro x hx
    rw [count_ks, countOp_eq I nd, if_pos hx]
  · intro x hx
    rw [count_ks, countOp_eq I nd, if_neg hx]
  · intro x
    rw [count_ks, countOp_eq I nd]
    split <;> omega

/-- Witness for C1 at the concrete key set `{[1], [2,2]}`. -/
theorem C1_count_set_semantics_witness :
    (([[1], [2, 2]] : List Key).Nodup ∧
      (∀ x ∈ ([[1], [2, 2]] : List Key), x.length ≤ maxKeySize) ∧
      ([[1], [2, 2]] : List Key).length ≤ maxSize) ∧
    count_ks h0 (buildTable h0 [[1], [2, 2]] 4) [1] = 1 ∧
    count_ks h0 (buildTable h0 [[1], [2, 2]] 4) [3] = 0 :=
  ⟨⟨by decide, by decide, by decide⟩,
    (C1_count_set_semantics h0 4 [[1], [2, 2]] (by decide) (by decide) (by decide)).1
      [1] (by decide),
    (C1_count_set_semantics h0 4 [[1], [2, 2]] (by decide) (by decide) (by decide)).2.1
      [3] (by decide)⟩

/-- Claim C2: inserting an absent key returns `inserted=true` and raises the element
count by 1; inserting a key that already has an equal key in the table returns that
key's handle with `inserted=false` and leaves the table completely unchanged; hence two
consecutive inserts of the same key raise the size by exactly 1 in total. -/
theorem C2_insert_twice (h : Key → Nat) :
    (∀ (s : ArrayHash) (ks : List Key) (k : Key), Inv h s ks → size s ≤ bucketCount s →
      k ∉ ks → k.length ≤ maxKeySize → size s + 1 ≤ maxSize →
      (∃ loc, (insert_ks h s k).2 = .ok (loc, true)) ∧
      size (insert_ks h s k).1 = size s + 1) ∧
    (∀ (s : ArrayHash) (k : Key) (loc : Locator), findOp h s k = some loc →
      insert_ks h s k = (s, .ok (loc, false))) ∧
    (∀ (s : ArrayHash) (ks : List Key) (k : Key), Inv h s ks → size s ≤ bucketCount s →
      k ∉ ks → k.length ≤ maxKeySize → size s + 1 ≤ maxSize →
      ∃ loc, insert_ks h (insert_ks h s k).1 k = ((insert_ks h s k).1, .ok (loc, false)) ∧
        size (insert_ks h s k).1 = size s + 1) := by
  refine ⟨?_, ?_, ?_⟩
  · intro s ks k I load hk hl hs
    obtain ⟨-, h2, -, hok⟩ := insert_success I load hk hl hs
    exact ⟨hok, h2⟩
  · intro s k loc hf
    exact insertOp_found hf
  · intro s ks k I load hk hl hs
    obtain ⟨I1, h2, -, -⟩ := insert_success I load hk hl hs
    have hmem : k ∈ ks ++ [k] := List.mem_append.mpr (Or.inr (List.mem_cons_self _ _))
    have hka : k ∈ allKeys (insertOp h k s).1 := I1.contentPerm.mem_iff.mpr hmem
    obtain ⟨loc, hf⟩ := Option.isSome_iff_exists.mp (findOp_isSome I1 hka)
    exact ⟨loc, insertOp_found hf, h2⟩

/-- Witness for C2: inserting `[7]` twice into a fresh one-bucket table. -/
theorem C2_insert_twice_witness :
    (([7] : Key) ∉ ([] : List Key)) ∧
    (∃ loc, (insert_ks h0 (mkEmpty 1) [7]).2 = .ok (loc, true)) ∧
    size (insert_ks h0 (mkEmpty 1) [7]).1 = 1 ∧
    (∃ loc, insert_ks h0 (insert_ks h0 (mkEmpty 1) [7]).1 [7]
      = ((insert_ks h0 (mkEmpty 1) [7]).1, .ok (loc, false))) := by
  have h1 := (C2_insert_twice h0).1 (mkEmpty 1) [] [7] (inv_mkEmpty h0 1)
    (by decide) (by decide) (by decide) (by decide)
  have h3 := (C2_insert_twice h0).2.2 (mkEmpty 1) [] [7] (inv_mkEmpty h0 1)
    (by decide) (by decide) (by decide) (by decide)
  refine ⟨by decide, h1.1, h1.2, ?_⟩
  obtain ⟨loc, he, -⟩ := h3
  exact ⟨loc, he⟩

/-- Claim C3: `operator==` returns true iff the element counts agree and every key of
the left table is found in the right one; two tables built by inserting the same key
set in different insertion orders (with possibly different requested bucket counts)
compare equal; erasing one key from one of them makes them compare unequal. -/
theorem C3_table_equality (h : Key → Nat) :
    (∀ lhs rhs : ArrayHash, tableEq h lhs rhs = true ↔
      (size lhs = size rhs ∧ ∀ k ∈ iterKeys lhs, (findOp h rhs k).isSome = true)) ∧
    (∀ (ks1 ks2 : List Key) (r1 r2 : Nat), ks1.Perm ks2 → ks1.Nodup →
      (∀ x ∈ ks1, x.length ≤ maxKeySize) → ks1.length ≤ maxSize →
      tableEq h (buildTable h ks1 r1) (buildTable h ks2 r2) = true) ∧
    (∀ (ks1 ks2 : List Key) (r1 r2 : Nat) (k : Key), ks1.Perm ks2 → ks1.Nodup →
      (∀ x ∈ ks1, x.length ≤ maxKeySize) → ks1.length ≤ maxSize → k ∈ ks2 →
      tableEq h (buildTable h ks1 r1) (erase_ks h (buildTable h ks2 r2) k).1 = false) := by
  have hiff : ∀ lhs rhs : ArrayHash, tableEq h lhs rhs = true ↔
      (size lhs = size rhs ∧ ∀ k ∈ iterKeys lhs, (findOp h rhs k).isSome = true) := by
    intro lhs rhs
    rw [tableEq]
    by_cases hs : size lhs = size rhs
    · rw [if_pos hs]
      constructor
      · intro ha
        exact ⟨hs, fun k hk => List.all_eq_true.mp ha k hk⟩
      · rintro ⟨-, hall⟩
        exact List.all_eq_true.mpr (fun k hk => hall k hk)
    · rw [if_neg hs]
      simp [hs]
  refine ⟨hiff, ?_, ?_⟩
  · intro ks1 ks2 r1 r2 hperm nd1 hlen1 hsz1
    have nd2 : ks2.Nodup := hperm.nodup_iff.mp nd1
    have hlen2 : ∀ x ∈ ks2, x.length ≤ maxKeySize :=
      fun x hx => hlen1 x (hperm.mem_iff.mpr hx)
    have hsz2 : ks2.length ≤ maxSize := hperm.length_eq ▸ hsz1
    obtain ⟨I1, -⟩ := inv_buildTable h ks1 r1 nd1 hlen1 hsz1
    obtain ⟨I2, -⟩ := inv_buildTable h ks2 r2 nd2 hlen2 hsz2
    rw [hiff]
    refine ⟨by rw [I1.size_eq, I2.size_eq, hperm.length_eq], ?_⟩
    intro k hk
    rw [I1.keysEq] at hk
    exact findOp_isSome I2 (I2.contentPerm.mem_iff.mpr (hperm.mem_iff.mp hk))
  · intro ks1 ks2 r1 r2 k hperm nd1 hlen1 hsz1 hk2
    have nd2 : ks2.Nodup := hperm.nodup_iff.mp nd1
    have hlen2 : ∀ x ∈ ks2, x.length ≤ maxKeySize :=
      fun x hx => hlen1 x (hperm.mem_iff.mpr hx)
    have hsz2 : ks2.length ≤ maxSize := hperm.length_eq ▸ hsz1
    obtain ⟨I1, -⟩ := inv_buildTable h ks1 r1 nd1 hlen1 hsz1
    obtain ⟨I2, -⟩ := inv_buildTable h ks2 r2 nd2 hlen2 hsz2
    obtain ⟨-, hsz', -, -⟩ := erase_effect I2 nd2 hk2
    have hpos : 0 < ks2.length := List.length_pos_of_mem hk2
    have hne : size (buildTable h ks1 r1) ≠ size (erase_ks h (buildTable h ks2 r2) k).1 := by
      rw [I1.size_eq]
      rw [show size (erase_ks h (buildTable h ks2 r2) k).1 = ks2.length - 1 from hsz']
      have := hperm.length_eq
      omega
    rw [tableEq, if_neg hne]

/-- Witness for C3: `{[1],[2]}` inserted in the two orders with different requested
bucket counts compares equal; after erasing `[1]` from the second, unequal. -/
theorem C3_table_equality_witness :
    (([[1], [2]] : List Key).Perm [[2], [1]] ∧ ([[1], [2]] : List Key).Nodup) ∧
    tableEq h0 (buildTable h0 [[1], [2]] 1) (buildTable h0 [[2], [1]] 2) = true ∧
    tableEq h0 (buildTable h0 [[1], [2]] 1)
      (erase_ks h0 (buildTable h0 [[2], [1]] 2) [1]).1 = false :=
  ⟨⟨List.Perm.swap [2] [1] [], by decide⟩,
    (C3_table_equality h0).2.1 [[1], [2]] [[2], [1]] 1 2 (List.Perm.swap [2] [1] [])
      (by decide) (by decide) (by decide),
    (C3_table_equality h0).2.2 [[1], [2]] [[2], [1]] 1 2 [1] (List.Perm.swap [2] [1] [])
      (by decide) (by decide) (by decide) (by decide)⟩

/-- Claim C4: erasing one key by value removes only that key and leaves every other
stored key findable: the erase returns removed count 1, the size drops by one,
`find_ks` on the erased key yields the not-found handle, and `find_ks` still succeeds
on every other stored key. -/
theorem C4_erase_frame (h : Key → Nat) (s : ArrayHash) (ks : List Key) (k : Key)
    (I : Inv h s ks) (nd : ks.Nodup) (hk : k ∈ ks) :
    (erase_ks h s k).2 = 1 ∧
    size (erase_ks h s k).1 = ks.length - 1 ∧
    find_ks h (erase_ks h s k).1 k = none ∧
    ∀ x ∈ ks, x ≠ k → (find_ks h (erase_ks h s k).1 x).isSome = true :=
  erase_effect I nd hk

/-- Witness for C4: insert `"a"`, `"bb"`, `"ccc"` (as byte strings), erase `"bb"`:
size becomes 2, `find` of `"bb"` is not-found, `"a"` and `"ccc"` are still found. -/
theorem C4_erase_frame_witness :
    (([[97], [98, 98], [99, 99, 99]] : List Key).Nodup ∧
      ([98, 98] : Key) ∈ ([[97], [98, 98], [99, 99, 99]] : List Key)) ∧
    (erase_ks h0 (buildTable h0 [[97], [98, 98], [99, 99, 99]] 4) [98, 98]).2 = 1 ∧
    size (erase_ks h0 (buildTable h0 [[97], [98, 98], [99, 99, 99]] 4) [98, 98]).1 = 2 ∧
    find_ks h0 (erase_ks h0 (buildTable h0 [[97], [98, 98], [99, 99, 99]] 4) [98, 98]).1
      [98, 98] = none ∧
    (find_ks h0 (erase_ks h0 (buildTable h0 [[97], [98, 98], [99, 99, 99]] 4) [98, 98]).1
      [97]).isSome = true ∧
    (find_ks h0 (erase_ks h0 (buildTable h0 [[97], [98, 98], [99, 99, 99]] 4) [98, 98]).1
      [99, 99, 99]).isSome = true := by
  have I := (inv_buildTable h0 [[97], [98, 98], [99, 99, 99]] 4
    (by decide) (by decide) (by decide)).1
  have main := C4_erase_frame h0 _ _ [98, 98] I (by decide) (by decide)
  exact ⟨⟨by decide, by decide⟩, main.1, main.2.1, main.2.2.1,
    main.2.2.2 [97] (by decide) (by decide),
    main.2.2.2 [99, 99, 99] (by decide) (by decide)⟩

/-- Claim C5: inserting a sequence of distinct keys into a fresh table makes iteration
yield exactly those keys, each once, in insertion order (this holds in particular when
no rehash is triggered; automatic rehashes preserve Index Table order, so no rehash
hypothesis is needed); after an erase, iteration order can differ from insertion order
because erase fills the removed Index Table slot with the last live slot and truncates,
as the concrete reordering example shows. -/
theorem C5_iteration_order (h : Key → Nat) :
    (∀ (ks : List Key) (req : Nat), ks.Nodup → (∀ x ∈ ks, x.length ≤ maxKeySize) →
      ks.length ≤ maxSize → iterKeys (buildTable h ks req) = ks) ∧
    (iterKeys (eraseOp h0 [0] (buildTable h0 [[0], [1], [2]] 4)).1 = [[2], [1]] ∧
      [[2], [1]] ≠ ([[1], [2]] : List Key)) := by
  refine ⟨?_, by decide, by decide⟩
  intro ks req nd hlen hsz
  exact ((inv_buildTable h ks req nd hlen hsz).1).keysEq

/-- Witness for C5: two keys inserted into a one-bucket table (forcing a rehash) are
iterated in insertion order. -/
theorem C5_iteration_order_witness :
    (([[5], [6]] : List Key).Nodup) ∧ iterKeys (buildTable h0 [[5], [6]] 1) = [[5], [6]] :=
  ⟨by decide, (C5_iteration_order h0).1 [[5], [6]] 1 (by decide) (by decide) (by decide)⟩

/-- Claim C6: with the default 16-bit key-length field, `maxKeySize` is
2^16 - 1 = 65535; inserting a 65536-byte key fails with CapacityExceeded (leaving the
table unchanged), and inserting a key of exactly 65535 bytes succeeds. -/
theorem C6_max_key_size (h : Key → Nat) :
    maxKeySize = 65535 ∧
    (insert_ks h (mkEmpty 1) (List.replicate 65536 0)).2 = .error .capacityExceeded ∧
    (insert_ks h (mkEmpty 1) (List.replicate 65536 0)).1 = mkEmpty 1 ∧
    (∃ loc, (insert_ks h (mkEmpty 1) (List.replicate 65535 0)).2 = .ok (loc, true)) := by
  have hlong : maxKeySize < (List.replicate 65536 (0 : Nat)).length := by
    rw [List.length_replicate]
    decide
  have hfit : ¬ maxKeySize < (List.replicate 65535 (0 : Nat)).length := by
    rw [List.length_replicate]
    decide
  refine ⟨by decide, ?_, ?_, ?_⟩
  · rw [insert_ks, insertOp_long_key h hlong]
  · rw [insert_ks, insertOp_long_key h hlong]
  · rw [insert_ks]
    exact insertOp_fits_mkEmpty h hfit

/-- Claim C7: with the default 32-bit element-count field, `maxSize` equals
2 to the power of the element-count field width, i.e. 2^32 = 4294967296. -/
theorem C7_max_size : maxSize = 2 ^ INDEX_WIDTH ∧ maxSize = 4294967296 :=
  ⟨rfl, by decide⟩

/-- Claim C8: the bucket count is a power of two and at least 1 — on construction
(a requested bucket count of 0 still yields one bucket) and after the insert, erase,
rehash, reserve and shrink_to_fit operations — and after inserting 10000 distinct keys
one at a time under the default maximum load factor 1.0 the final bucket count is a
power of two that is at least 10000. -/
theorem C8_bucket_count_pow2 (h : Key → Nat) :
    (∀ req : Nat, (∃ m, bucketCount (mkEmpty req) = 2 ^ m) ∧ 1 ≤ bucketCount (mkEmpty req)) ∧
    (∀ (k : Key) (s : ArrayHash), (∃ m, bucketCount s = 2 ^ m) →
      (∃ m, bucketCount (insertOp h k s).1 = 2 ^ m) ∧
      (∃ m, bucketCount (eraseOp h k s).1 = 2 ^ m)) ∧
    (∀ (n : Nat) (s : ArrayHash), (∃ m, bucketCount s = 2 ^ m) →
      (∃ m, bucketCount (rehashOp h n s).1 = 2 ^ m) ∧
      (∃ m, bucketCount (reserveOp h n s).1 = 2 ^ m) ∧
      (∃ m, bucketCount (shrinkToFitOp h s).1 = 2 ^ m)) ∧
    (∀ (ks : List Key) (req : Nat), ks.Nodup → (∀ x ∈ ks, x.length ≤ maxKeySize) →
      ks.length = 10000 →
      (∃ m, bucketCount (buildTable h ks req) = 2 ^ m) ∧
      10000 ≤ bucketCount (buildTable h ks req)) := by
  refine ⟨?_, ?_, ?_, ?_⟩
  · intro req
    constructor
    · simpa [bucketCount, mkEmpty] using bucketCountFor_pow req
    · simpa [bucketCount, mkEmpty] using bucketCountFor_pos req
  · intro k s hp
    exact ⟨pow_insertOp hp, by rw [bucketCount_eraseOp]; exact hp⟩
  · intro n s hp
    exact ⟨pow_rehashRaw hp, pow_rehashRaw hp, pow_rehashRaw hp⟩
  · intro ks req nd hlen hn
    have hsz : ks.length ≤ maxSize := by rw [hn]; decide
    obtain ⟨I, load⟩ := inv_buildTable h ks req nd hlen hsz
    refine ⟨I.pow, ?_⟩
    have h1 := I.size_eq
    omega

/-- The 10000 distinct one-byte-coded keys used by the C8 witness. -/
def ks10000 : List Key := (List.range 10000).map (fun n => [n])

/-- Witness for C8: inserting the 10000 distinct keys of `ks10000` into a table
requested with 0 buckets ends with at least 10000 buckets. -/
theorem C8_bucket_count_pow2_witness :
    (ks10000.Nodup ∧ ks10000.length = 10000) ∧
    10000 ≤ bucketCount (buildTable h0 ks10000 0) := by
  have nd : ks10000.Nodup := by
    refine List.Nodup.map ?_ (List.nodup_range 10000)
    intro a b hab
    simpa using hab
  have hn : ks10000.length = 10000 := by simp [ks10000]
  have hlen : ∀ x ∈ ks10000, x.length ≤ maxKeySize := by
    intro x hx
    rw [ks10000, List.mem_map] at hx
    obtain ⟨n, -, rfl⟩ := hx
    rw [List.length_singleton]
    decide
  exact ⟨⟨nd, hn⟩, ((C8_bucket_count_pow2 h0).2.2.2 ks10000 0 nd hlen hn).2⟩

/-- Claim C9: a mutating operation (insert, rehash, reserve, shrink_to_fit) that is
rejected with a capacity error leaves the table in its exact prior state — same
element count, key set and bucket count, with no partial writes. -/
theorem C9_capacity_error_frame (h : Key → Nat) :
    (∀ (k : Key) (s : ArrayHash) (e : Err), (insert_ks h s k).2 = .error e →
      (insert_ks h s k).1 = s) ∧
    (∀ (n : Nat) (s : ArrayHash) (e : Err), (rehashOp h n s).2 = .error e →
      (rehashOp h n s).1 = s) ∧
    (∀ (n : Nat) (s : ArrayHash) (e : Err), (reserveOp h n s).2 = .error e →
      (reserveOp h n s).1 = s) ∧
    (∀ (s : ArrayHash) (e : Err), (shrinkToFitOp h s).2 = .error e →
      (shrinkToFitOp h s).1 = s) := by
  refine ⟨?_, ?_, ?_, ?_⟩
  · intro k s e he
    exact insertOp_error_fst he
  · intro n s e he
    exact rehashRaw_error_fst he
  · intro n s e he
    exact rehashRaw_error_fst he
  · intro s e he
    exact rehashRaw_error_fst he

/-- Witness for C9: the rejected insert of a 65536-byte key leaves the fresh table in
its prior state. -/
theorem C9_capacity_error_frame_witness :
    (insert_ks h0 (mkEmpty 1) (List.replicate 65536 0)).2 = .error .capacityExceeded ∧
    (insert_ks h0 (mkEmpty 1) (List.replicate 65536 0)).1 = mkEmpty 1 := by
  have he : (insert_ks h0 (mkEmpty 1) (List.replicate 65536 0)).2
      = .error .capacityExceeded := by
    rw [insert_ks, insertOp_long_key h0 (by rw [List.length_replicate]; decide)]
  exact ⟨he, (C9_capacity_error_frame h0).1 (List.replicate 65536 0) (mkEmpty 1)
    .capacityExceeded he⟩

/-- Claim C10: the emplace family is observationally equivalent to the insert family:
`emplaceStr` (the source's `emplace` for an owned string) and `emplace_ks` forward to
the engine insert exactly as `insertStr` (the source's `insert`) and `insert_ks` do, so
they return the same result and produce the same post-state on every table and key. -/
theorem C10_emplace_is_insert (h : Key → Nat) (s : ArrayHash) (k : Key) :
    emplaceStr h s k = insertStr h s k ∧ emplace_ks h s k = insert_ks h s k :=
  ⟨rfl, rfl⟩

end Tsl
